import Mathlib

/-!
# Verification development for the `cosmo` library drivers

Shallow embedding of the parts of `cosmostack.cc`, `cosmotrans.cc`,
`cosmodpc.cc`, `FftGaussianRandomFieldGenerator.cc`, `TabulatedPower.h` and
`DistortedPowerCorrelationFft.h` that the properties below talk about.

Conventions of the embedding:

* a C++ `double` whose value is only compared, or only combined with
  integer-valued operands, is a rational number (`ℚ`); the histogram
  arithmetic of `cosmostack.cc`, where rounding decides the outcome, is
  carried out on binary64 values (`Dbl`) with round-to-nearest, ties-to-even;
* a C++ `int` that only ever counts upwards from zero (loop indices, grid
  sizes that bound such loops) is a `Nat`; other `int`s are `Int`, with
  C++ truncating division `Int.tdiv` / `Int.tmod`;
* `std::size_t` is a `Nat` reduced modulo `2 ^ 64`;
* a `for` loop over `0 .. n-1` is a left fold over `List.range n`.
-/

namespace Cosmo

/-! ## `FftGaussianRandomFieldGenerator.cc` -/

/-- Number of values of `std::size_t`. -/
def sizeTModulus : Nat := 2 ^ 64

/-- Conversion of an `int` to `std::size_t`. -/
def toSizeT (x : Int) : Nat := (x % (sizeTModulus : Int)).toNat

/-- The member `_halfz`, initialised in the constructor as `_halfz(nz/2+1)`
(integer division of `int`s). -/
def halfz (nz : Int) : Int := Int.tdiv nz 2 + 1

/-- The local `nbuf` of `_generate`:
`std::size_t nbuf((std::size_t)getNx()*getNy()*_halfz);`. -/
def nbuf (nx ny nz : Int) : Nat :=
  ((toSizeT nx * toSizeT ny) % sizeTModulus * toSizeT (halfz nz)) % sizeTModulus

/-- Size of one `FFTW(complex)` element: the file selects the float
transforms (`fftwf_`), whose complex type is `float[2]`. -/
def sizeofFftwComplex : Nat := 8

/-- The byte count `_generate` passes to `FFTW(malloc)`:
`nbuf*sizeof(FFTW(complex))`. -/
def generateAllocBytes (nx ny nz : Int) : Nat :=
  (nbuf nx ny nz * sizeofFftwComplex) % sizeTModulus

/-- The method `FftGaussianRandomFieldGenerator::getMemorySize`:
`return sizeof(*this) + (std::size_t)getNx()*getNy()*_halfz;`
with `sizeofThis` standing for `sizeof(*this)`. -/
def getMemorySize (sizeofThis : Nat) (nx ny nz : Int) : Nat :=
  (sizeofThis +
    ((toSizeT nx * toSizeT ny) % sizeTModulus * toSizeT (halfz nz)) % sizeTModulus)
    % sizeTModulus

/-! ## `cosmostack.cc` -/

/-- The function `distance` of `cosmostack.cc`:
`double dx(x1 - x0);`
`return (dx > 0 ? (dx > period/2 ? dx - period : dx)
               : (dx < -period/2 ? dx + period : dx));`. -/
def distance (x0 x1 period : ℚ) : ℚ :=
  let dx := x1 - x0
  if dx > 0 then (if dx > period / 2 then dx - period else dx)
  else (if dx < -period / 2 then dx + period else dx)

/-- Filling in of missing grid dimensions in `main`:
`if(0 == ny) ny = nx; if(0 == nz) nz = ny;`. Returns `(nx, ny, nz)`. -/
def fillDims (nx ny nz : Int) : Int × Int × Int :=
  let ny := if 0 = ny then nx else ny
  let nz := if 0 = nz then ny else nz
  (nx, ny, nz)

/-- The pair `extremeValue`, `extremeIndex` of the main loop. -/
structure Extreme where
  extremeValue : ℚ
  extremeIndex : Nat × Nat × Nat

/-- Body of the innermost search loop:
`double value = generator->getField(ix,iy,iz);`
`if((minimum ? value < extremeValue : value > extremeValue)) { ... }`. -/
def visit (field : Nat → Nat → Nat → ℚ) (minimum : Bool) (ix iy : Nat)
    (s : Extreme) (iz : Nat) : Extreme :=
  let value := field ix iy iz
  if (if minimum then value < s.extremeValue else value > s.extremeValue) then
    { extremeValue := value, extremeIndex := (ix, iy, iz) }
  else s

/-- The loop `for(int iz = 0; iz < nz; ++iz)` of the search. -/
def searchZ (field : Nat → Nat → Nat → ℚ) (minimum : Bool) (nz ix iy : Nat)
    (s : Extreme) : Extreme :=
  (List.range nz).foldl (visit field minimum ix iy) s

/-- The loop `for(int iy = 0; iy < ny; ++iy)` of the search. -/
def searchY (field : Nat → Nat → Nat → ℚ) (minimum : Bool) (ny nz ix : Nat)
    (s : Extreme) : Extreme :=
  (List.range ny).foldl (fun s iy => searchZ field minimum nz ix iy s) s

/-- The loop `for(int ix = 0; ix < nx; ++ix)` of the search. -/
def searchX (field : Nat → Nat → Nat → ℚ) (minimum : Bool) (nx ny nz : Nat)
    (s : Extreme) : Extreme :=
  (List.range nx).foldl (fun s ix => searchY field minimum ny nz ix s) s

/-- Selection of the stacking point for one field: `extremeValue` starts as
`getField(0,0,0)` and `extremeIndex` as `(0,0,0)`; unless `fiducial` is set
the three nested loops scan the grid, otherwise the index stays `(0,0,0)`. -/
def findExtreme (field : Nat → Nat → Nat → ℚ) (fiducial minimum : Bool)
    (nx ny nz : Nat) : Extreme :=
  let start : Extreme := { extremeValue := field 0 0 0, extremeIndex := (0, 0, 0) }
  if !fiducial then searchX field minimum nx ny nz start
  else { start with extremeIndex := (0, 0, 0) }

/-- Scan order of the nested loops (x outermost, z innermost): `p` is
visited strictly before `q`. -/
def scanBefore (p q : Nat × Nat × Nat) : Prop :=
  p.1 < q.1 ∨ (p.1 = q.1 ∧ (p.2.1 < q.2.1 ∨ (p.2.1 = q.2.1 ∧ p.2.2 < q.2.2)))

instance (p q : Nat × Nat × Nat) : Decidable (scanBefore p q) := by
  unfold scanBefore; infer_instance

/-- The grid point `p` lies on the `nx * ny * nz` grid. -/
def inGrid (nx ny nz : Nat) (p : Nat × Nat × Nat) : Prop :=
  p.1 < nx ∧ p.2.1 < ny ∧ p.2.2 < nz

instance (nx ny nz : Nat) (p : Nat × Nat × Nat) : Decidable (inGrid nx ny nz p) := by
  unfold inGrid; infer_instance

/-- Field value at an index triple: `generator->getField(p[0],p[1],p[2])`. -/
def fieldAt (field : Nat → Nat → Nat → ℚ) (p : Nat × Nat × Nat) : ℚ :=
  field p.1 p.2.1 p.2.2

/-- The value `v` is at least as extreme as `w`: `v ≤ w` when searching for the
minimum, `w ≤ v` when searching for the maximum. -/
def notWorse (minimum : Bool) (v w : ℚ) : Prop := if minimum then v ≤ w else w ≤ v

/-- Loop invariant of the search when the scan has reached the cursor `c`:
the recorded value is the field value at the recorded index, the index is on
the grid, no grid point before the cursor is more extreme, and every grid
point before the recorded index is strictly less extreme. -/
def SearchInv (field : Nat → Nat → Nat → ℚ) (minimum : Bool) (nx ny nz : Nat)
    (c : Nat × Nat × Nat) (s : Extreme) : Prop :=
  s.extremeValue = fieldAt field s.extremeIndex ∧
  inGrid nx ny nz s.extremeIndex ∧
  (∀ p, inGrid nx ny nz p → scanBefore p c →
    notWorse minimum s.extremeValue (fieldAt field p)) ∧
  (∀ p, inGrid nx ny nz p → scanBefore p s.extremeIndex →
    notWorse minimum s.extremeValue (fieldAt field p) ∧
      s.extremeValue ≠ fieldAt field p)

/-- A small test field on a `2 * 2 * 2` grid with two tied maxima, at
`(0,1,0)` and `(1,1,0)`. -/
def sampleField (_ix iy iz : Nat) : ℚ := (iy : ℚ) - (iz : ℚ)

/-- A finite binary64 value, written `m * 2^e` with integers `m` and `e`.
Results of the arithmetic below carry a significand of at most 53 bits; the
exponent range is not limited (no overflow to infinity, no subnormals, no
NaN). -/
structure Dbl where
  m : Int
  e : Int

/-- Bit length of a natural number by repeated halving; `fuel` bounds the
number of halvings. -/
def Dbl.bitLengthAux : Nat → Nat → Nat
  | 0, _ => 0
  | fuel + 1, n => if n = 0 then 0 else Dbl.bitLengthAux fuel (n / 2) + 1

/-- Bit length of `n`: the number of binary digits of `n` (0 for `n = 0`).
Taking `n` itself as fuel is always enough. -/
def Dbl.bitLength (n : Nat) : Nat := Dbl.bitLengthAux n n

/-- Rounding of the exact value `m * 2^e` to binary64: the significand is cut
to 53 bits, to the nearest value, a tie going to the even significand. -/
def Dbl.round (m e : Int) : Dbl :=
  let a := m.natAbs
  let k := Dbl.bitLength a - 53
  if k = 0 then { m := m, e := e }
  else
    let q := a / 2 ^ k
    let r := a % 2 ^ k
    let half := 2 ^ (k - 1)
    let q1 := if half < r ∨ (r = half ∧ q % 2 = 1) then q + 1 else q
    { m := if m < 0 then -(q1 : Int) else (q1 : Int), e := e + (k : Int) }

/-- Conversion of an `int` to `double`. -/
def Dbl.ofInt (n : Int) : Dbl := Dbl.round n 0

/-- Significand of `x` when written with the exponent `e ≤ x.e`. -/
def Dbl.scaled (x : Dbl) (e : Int) : Int := x.m * 2 ^ (x.e - e).toNat

/-- The `double` sum `x + y`: the exact sum, rounded. -/
def Dbl.add (x y : Dbl) : Dbl :=
  let e := min x.e y.e
  Dbl.round (x.scaled e + y.scaled e) e

/-- The `double` difference `x - y`: the exact difference, rounded. -/
def Dbl.sub (x y : Dbl) : Dbl :=
  let e := min x.e y.e
  Dbl.round (x.scaled e - y.scaled e) e

/-- The `double` product `x * y`: the exact product, rounded. -/
def Dbl.mul (x y : Dbl) : Dbl := Dbl.round (x.m * y.m) (x.e + y.e)

/-- The `double` quotient `x / y` for `y ≠ 0`: the quotient of the
significands is computed with more than 64 bits and a sticky bit for the
remainder, then rounded. -/
def Dbl.div (x y : Dbl) : Dbl :=
  let a := x.m.natAbs
  let b := y.m.natAbs
  let s := Dbl.bitLength b + 64
  let n := a * 2 ^ s
  let q := n / b
  let sticky := if n % b = 0 then 0 else 1
  let mag : Int := ((2 * q + sticky : Nat) : Int)
  Dbl.round (if (x.m < 0) = (y.m < 0) then mag else -mag) (x.e - y.e - (s : Int) - 1)

/-- The comparison `x < y` of two `double`s. -/
def Dbl.lt (x y : Dbl) : Bool :=
  let e := min x.e y.e
  decide (x.scaled e < y.scaled e)

/-- The comparison `x <= y` of two `double`s. -/
def Dbl.le (x y : Dbl) : Bool :=
  let e := min x.e y.e
  decide (x.scaled e ≤ y.scaled e)

/-- The integer `std::floor(x)`. -/
def Dbl.floor (x : Dbl) : Int :=
  if 0 ≤ x.e then x.m * 2 ^ x.e.toNat else x.m / 2 ^ (-x.e).toNat

/-- The rational number a `double` stands for. -/
def Dbl.toRat (x : Dbl) : ℚ := (x.m : ℚ) * (2 : ℚ) ^ x.e

/-- Upper edge of the histograms: `double rmax(rmin + nbins*binsize);`. -/
def rmax (rmin binsize : Dbl) (nbins : Int) : Dbl :=
  Dbl.add rmin (Dbl.mul (Dbl.ofInt nbins) binsize)

/-- Index used for the 1-d histogram: `std::floor((r-rmin)/binsize)`. -/
def binIndex (rmin binsize r : Dbl) : Int :=
  Dbl.floor (Dbl.div (Dbl.sub r rmin) binsize)

/-- The 1-d accumulation step
`if(r < rmax && r >= rmin) xi[std::floor((r-rmin)/binsize)].accumulate(value);`:
the index of `xi` that receives the value, or `none` when nothing is
accumulated. -/
def accumulateBin (rmin binsize : Dbl) (nbins : Int) (r : Dbl) : Option Int :=
  if Dbl.lt r (rmax rmin binsize nbins) && Dbl.le rmin r then
    some (binIndex rmin binsize r)
  else none

/-- The `double` 0. -/
def dblZero : Dbl := { m := 0, e := 0 }

/-- The `double` nearest to 0.1 (bit pattern `0x3FB999999999999A`). -/
def dblTenth : Dbl := { m := 3602879701896397, e := -55 }

/-- The `double` nearest to 1.7 (bit pattern `0x3FFB333333333333`). -/
def dblSeventeenTenths : Dbl := { m := 7656119366529843, e := -52 }

/-- Condition of the status / snapshot branch:
`nfields > 10 && (ifield+1) % (nfields/10) == 0`. -/
def statusBranch (nfields ifield : Int) : Bool :=
  decide (nfields > 10) && Int.tmod (ifield + 1) (Int.tdiv nfields 10) == 0

/-- Conversion `int(x)` of a `double`: truncation towards zero. -/
def truncToInt (x : ℚ) : Int := if 0 ≤ x then ⌊x⌋ else ⌈x⌉

/-- Snapshot number put into the file name: `int((ifield+1.)/nfields*10)`. -/
def snapshotNumber (nfields ifield : Int) : Int :=
  truncToInt (((ifield : ℚ) + 1) / (nfields : ℚ) * 10)

/-- The values of `ifield`, in loop order, at which the status / snapshot
branch is taken during `for(int ifield = 0; ifield < nfields; ++ifield)`. -/
def statusFields (nfields : Int) : List Int :=
  ((List.range nfields.toNat).map (fun i => (i : Int))).filter (statusBranch nfields)

/-- The snapshot numbers written, in loop order. -/
def snapshotNumbers (nfields : Int) : List Int :=
  (statusFields nfields).map (snapshotNumber nfields)

/-! ## `cosmotrans.cc` -/

/-- The arguments handed to `mt.transform(funcData,results)`. -/
structure TransformArgs where
  funcData : List ℚ
  results : List ℚ

/-- Construction of `funcData`:
`std::vector<double> funcData(ugrid.size());`
`for(int i = 0; i < funcData.size(); ++i) funcData[i] = (*PkPtr)(ugrid[i]);`. -/
def fillFuncData (Pk : ℚ → ℚ) (ugrid : List ℚ) : List ℚ :=
  let funcData : List ℚ := List.replicate ugrid.length 0
  (List.range funcData.length).foldl
    (fun fd i => fd.set i (Pk (ugrid.getD i 0))) funcData

/-- The part of `main` between the construction of the transform and the call
`mt.transform(funcData,results)`; `results` is `std::vector<double>(vgrid.size())`. -/
def transformArgs (Pk : ℚ → ℚ) (ugrid vgrid : List ℚ) : TransformArgs :=
  { funcData := fillFuncData Pk ugrid
    results := List.replicate vgrid.length 0 }

/-! ## `cosmodpc.cc` -/

/-- The loop `for(int i = 0; i < repeat; ++i) { ok = dpc.transform(bypass); }`.
`transform i` is the value returned by the `i`-th call, `ok` the content of
the variable `bool ok;` before the loop (it is declared without initialiser). -/
def repeatTransform (transform : Nat → Bool) (nrepeat : Int) (ok : Bool) : Bool :=
  (List.range nrepeat.toNat).foldl (fun _ i => transform i) ok

/-- Whether `"Transform fails termination test."` is printed:
`if(!ok) { std::cerr << ... }` after the loop. -/
def printsTerminationFailure (transform : Nat → Bool) (nrepeat : Int) (ok : Bool) : Bool :=
  !(repeatTransform transform nrepeat ok)

/-! ## `TabulatedPower.h` and `DistortedPowerCorrelationFft.h` -/

/-- State of a `TabulatedPower`: interpolation limits, the interpolating
function over `[kmin, kmax]` and the optional extrapolators. -/
structure TabulatedPower where
  kmin : ℚ
  kmax : ℚ
  interpolator : ℚ → ℚ
  extrapolateBelow : Option (ℚ → ℚ)
  extrapolateAbove : Option (ℚ → ℚ)

/-- Modelled from the spec: `TabulatedPower::operator()(double k)`, declared in
`TabulatedPower.h` but defined in a file that is not among the sources. The
spec: returns 0 for k ≤ 0; for kmin ≤ k ≤ kmax returns the spline
interpolation; below kmin returns the power-law extrapolation if enabled,
else fails; above kmax analogous. Failure is `none`. -/
def TabulatedPower.evaluate (p : TabulatedPower) (k : ℚ) : Option ℚ :=
  if k ≤ 0 then some 0
  else if k < p.kmin then p.extrapolateBelow.map (fun f => f k)
  else if k ≤ p.kmax then some (p.interpolator k)
  else p.extrapolateAbove.map (fun f => f k)

/-- The members of `DistortedPowerCorrelationFft` that `getPower` and
`getImPower` read: the isotropic power, the real and imaginary distortion
functions and the flag `_imagpart`. -/
structure DistortedPowerCorrelationFft where
  power : ℚ → ℚ
  distortion : ℚ → ℚ → ℚ
  imdistortion : ℚ → ℚ → ℚ
  imagpart : Bool

/-- Modelled from the spec: `DistortedPowerCorrelationFft::getPower`, declared
in `DistortedPowerCorrelationFft.h` but defined in a file that is not among
the sources. The spec (and the header comment): returns `P(k) * D(k, mu)`
(real part). -/
def DistortedPowerCorrelationFft.getPower (d : DistortedPowerCorrelationFft)
    (k mu : ℚ) : ℚ :=
  d.power k * d.distortion k mu

/-- A tabulated power on `[1, 2]` without extrapolation, used as a test object. -/
def samplePower : TabulatedPower :=
  { kmin := 1, kmax := 2, interpolator := fun k => k, extrapolateBelow := none,
    extrapolateAbove := none }

/-! ## Properties -/

/-! ### Memory size of the FFT generator -/

/-- What `getMemorySize` computes: `sizeof(*this)` plus the number of complex
elements `nbuf` of the transform buffer (not their size in bytes). -/
theorem getMemorySize_eq_nbuf (sizeofThis : Nat) (nx ny nz : Int) :
    getMemorySize sizeofThis nx ny nz = (sizeofThis + nbuf nx ny nz) % sizeTModulus := rfl

/-- C1, evaluated on the `1 * 1 * 1` grid: `_generate` allocates 8 bytes (one
`float[2]` element) for the transform buffer, but `getMemorySize` reports
`sizeof(*this) + 1`, which differs from `sizeof(*this) + 8` whatever the
object size is: the element count is not multiplied by the element size. -/
theorem getMemorySize_omits_element_size (sizeofThis : Nat) :
    generateAllocBytes 1 1 1 = 8 ∧
    getMemorySize sizeofThis 1 1 1 = (sizeofThis + 1) % sizeTModulus ∧
    getMemorySize sizeofThis 1 1 1 ≠
      (sizeofThis + generateAllocBytes 1 1 1) % sizeTModulus := by
  have e1 : toSizeT 1 = 1 := by decide
  have e2 : toSizeT (halfz 1) = 1 := by decide
  have h1 : getMemorySize sizeofThis 1 1 1 = (sizeofThis + 1) % sizeTModulus := by
    simp [getMemorySize, e1, e2, sizeTModulus]
  have h2 : generateAllocBytes 1 1 1 = 8 := by decide
  refine ⟨h2, h1, ?_⟩
  rw [h1, h2]; simp only [sizeTModulus]; omega

/-- Conversion to `std::size_t` keeps a non-negative value that fits. -/
theorem toSizeT_natCast (n : Nat) (h : n < sizeTModulus) : toSizeT (n : Int) = n := by
  unfold toSizeT
  rw [Int.emod_eq_of_lt (by omega) (by exact_mod_cast h)]
  simp

/-- For a non-negative `nz` the member `_halfz` is `nz/2 + 1`. -/
theorem halfz_natCast (n : Nat) : halfz (n : Int) = ((n / 2 + 1 : Nat) : Int) := by
  unfold halfz
  rw [Int.tdiv_eq_ediv (by omega) (by omega)]
  push_cast; rfl

/-- On every grid with `nx, ny, nz ≥ 1` whose buffer size fits in `std::size_t`,
`getMemorySize` is `sizeof(*this)` plus the element count `nx*ny*(nz/2+1)`,
strictly below `sizeof(*this)` plus the bytes allocated by `_generate`. -/
theorem getMemorySize_counts_elements (sizeofThis nx ny nz : Nat)
    (hx : 1 ≤ nx) (hy : 1 ≤ ny) (_hz : 1 ≤ nz)
    (hfit : sizeofThis + nx * ny * (nz / 2 + 1) * sizeofFftwComplex < sizeTModulus) :
    getMemorySize sizeofThis nx ny nz = sizeofThis + nx * ny * (nz / 2 + 1) ∧
    generateAllocBytes nx ny nz = nx * ny * (nz / 2 + 1) * sizeofFftwComplex ∧
    getMemorySize sizeofThis nx ny nz < sizeofThis + generateAllocBytes nx ny nz := by
  have hpos : 1 ≤ nx * ny * (nz / 2 + 1) :=
    Nat.mul_pos (Nat.mul_pos hx hy) (Nat.succ_pos _)
  have h8 : sizeofFftwComplex = 8 := rfl
  rw [h8] at hfit ⊢
  have hh : nz / 2 + 1 ≤ nx * ny * (nz / 2 + 1) :=
    Nat.le_mul_of_pos_left _ (Nat.mul_pos hx hy)
  have hxy : nx * ny ≤ nx * ny * (nz / 2 + 1) := Nat.le_mul_of_pos_right _ (Nat.succ_pos _)
  have hxle : nx ≤ nx * ny := Nat.le_mul_of_pos_right _ hy
  have hyle : ny ≤ nx * ny := Nat.le_mul_of_pos_left _ hx
  have ex : toSizeT (nx : Int) = nx := toSizeT_natCast nx (by omega)
  have ey : toSizeT (ny : Int) = ny := toSizeT_natCast ny (by omega)
  have ez : toSizeT (halfz (nz : Int)) = nz / 2 + 1 := by
    rw [halfz_natCast]; exact toSizeT_natCast _ (by omega)
  have hn : nbuf nx ny nz = nx * ny * (nz / 2 + 1) := by
    have m1 : nx * ny % sizeTModulus = nx * ny := Nat.mod_eq_of_lt (by omega)
    have m2 : nx * ny * (nz / 2 + 1) % sizeTModulus = nx * ny * (nz / 2 + 1) :=
      Nat.mod_eq_of_lt (by omega)
    unfold nbuf
    rw [ex, ey, ez, m1, m2]
  have hg : getMemorySize sizeofThis nx ny nz = sizeofThis + nx * ny * (nz / 2 + 1) := by
    rw [getMemorySize_eq_nbuf, hn, Nat.mod_eq_of_lt (by omega)]
  have ha : generateAllocBytes nx ny nz = nx * ny * (nz / 2 + 1) * 8 := by
    unfold generateAllocBytes
    rw [hn, h8, Nat.mod_eq_of_lt (by omega)]
  refine ⟨hg, ha, ?_⟩
  rw [hg, ha]; omega

/-! ### Tabulated power and distorted power -/

/-- C2: for every tabulated power object and every `k ≤ 0` the evaluation
returns exactly 0, whatever the samples and the extrapolation settings. -/
theorem tabulatedPower_evaluate_nonpos (p : TabulatedPower) (k : ℚ) (hk : k ≤ 0) :
    p.evaluate k = some 0 := by
  unfold TabulatedPower.evaluate
  rw [if_pos hk]

/-- Instance of C2 at `k = -1` for a table without extrapolation. -/
theorem tabulatedPower_evaluate_nonpos_witness :
    (-1 : ℚ) ≤ 0 ∧ samplePower.evaluate (-1) = some 0 :=
  ⟨by norm_num, tabulatedPower_evaluate_nonpos samplePower (-1) (by norm_num)⟩

/-- C3: for every `k` and `mu`, `getPower(k, mu)` is the product of the
isotropic power `P(k)` and the (real) distortion `D(k, mu)` the object was
built with. -/
theorem getPower_eq_product (d : DistortedPowerCorrelationFft) (k mu : ℚ) :
    d.getPower k mu = d.power k * d.distortion k mu := rfl

/-! ### Periodic distance -/

/-- C4 as stated fails: with `period = 4`, `x0 = 1`, `x1 = 0` (both inside
`[0, period)`) the function returns `-1`, which is negative and differs from
`min(|x1 - x0|, period - |x1 - x0|) = 1`. -/
theorem distance_negative_example :
    ((0 : ℚ) < 4 ∧ (0 : ℚ) ≤ 1 ∧ (1 : ℚ) < 4 ∧ (0 : ℚ) ≤ 0 ∧ (0 : ℚ) < 4) ∧
    distance 1 0 4 = -1 ∧ distance 1 0 4 < 0 ∧
    distance 1 0 4 ≠ min |(0 : ℚ) - 1| (4 - |(0 : ℚ) - 1|) := by
  have h : distance 1 0 4 = -1 := by norm_num [distance]
  refine ⟨by norm_num, h, ?_, ?_⟩
  · rw [h]; norm_num
  · rw [h]; norm_num

/-- C4 amended: for `period > 0` and `x0`, `x1` in `[0, period)` the result is
a signed displacement whose absolute value is
`min(|x1 - x0|, period - |x1 - x0|)`. -/
theorem distance_abs_eq_min (x0 x1 period : ℚ) (_hp : 0 < period)
    (h0 : 0 ≤ x0) (h0p : x0 < period) (h1 : 0 ≤ x1) (h1p : x1 < period) :
    |distance x0 x1 period| = min |x1 - x0| (period - |x1 - x0|) := by
  unfold distance
  simp only []
  split_ifs with a b c
  · rw [abs_of_nonpos (by linarith), abs_of_pos a, min_eq_right (by linarith)]; ring
  · rw [abs_of_pos a, min_eq_left (by linarith)]
  · rw [abs_of_nonneg (by linarith), abs_of_nonpos (by linarith),
      min_eq_right (by linarith)]; ring
  · rw [abs_of_nonpos (by linarith), min_eq_left (by linarith)]

/-- Instance of the amended C4 at `period = 4`, `x0 = 1`, `x1 = 0`. -/
theorem distance_abs_eq_min_witness :
    ((0 : ℚ) < 4 ∧ (0 : ℚ) ≤ 1 ∧ (1 : ℚ) < 4 ∧ (0 : ℚ) ≤ 0 ∧ (0 : ℚ) < 4) ∧
    |distance 1 0 4| = min |(0 : ℚ) - 1| (4 - |(0 : ℚ) - 1|) :=
  ⟨by norm_num,
   distance_abs_eq_min 1 0 4 (by norm_num) (by norm_num) (by norm_num) (by norm_num)
     (by norm_num)⟩

/-! ### Grid dimensions -/

/-- C9: missing grid dimensions default to the prior axis: `ny` becomes `nx`
when it is zero, `nz` becomes the filled `ny` when it is zero; `(nx, 0, 0)`
becomes `(nx, nx, nx)` and non-zero inputs are unchanged. -/
theorem fillDims_spec (nx ny nz : Int) :
    fillDims nx ny nz = (nx, (if ny = 0 then nx else ny),
        (if nz = 0 then (if ny = 0 then nx else ny) else nz)) ∧
    fillDims nx 0 0 = (nx, nx, nx) ∧
    (ny ≠ 0 → nz ≠ 0 → fillDims nx ny nz = (nx, ny, nz)) := by
  refine ⟨?_, ?_, ?_⟩
  · simp only [fillDims, eq_comm]
  · simp [fillDims]
  · intro h1 h2; simp [fillDims, Ne.symm h1, Ne.symm h2]

/-- Instance of C9 at `(4, 2, 3)`, where nothing is filled in. -/
theorem fillDims_spec_witness :
    ((2 : Int) ≠ 0 ∧ (3 : Int) ≠ 0) ∧ fillDims 4 2 3 = (4, 2, 3) :=
  ⟨by decide, (fillDims_spec 4 2 3).2.2 (by decide) (by decide)⟩

/-! ### Search for the field extreme -/

/-- Invariant rule for a `for` loop over `0 .. n-1` written as a left fold. -/
theorem foldl_range_invariant {σ : Type} (step : σ → Nat → σ) (P : Nat → σ → Prop)
    (n : Nat) (s0 : σ) (h0 : P 0 s0)
    (hs : ∀ i s, i < n → P i s → P (i + 1) (step s i)) :
    P n ((List.range n).foldl step s0) := by
  have key : ∀ m, m ≤ n → P m ((List.range m).foldl step s0) := by
    intro m
    induction m with
    | zero => intro _; simpa using h0
    | succ k ih =>
      intro hk
      rw [List.range_succ, List.foldl_append]
      exact hs k _ (by omega) (ih (by omega))
  exact key n le_rfl

/-- The invariant may be moved to any cursor that has the same grid points
before it. -/
theorem SearchInv.cursor {field : Nat → Nat → Nat → ℚ} {minimum : Bool} {nx ny nz : Nat}
    {c d : Nat × Nat × Nat} {s : Extreme}
    (h : SearchInv field minimum nx ny nz c s)
    (hcd : ∀ p, inGrid nx ny nz p → scanBefore p d → scanBefore p c) :
    SearchInv field minimum nx ny nz d s :=
  ⟨h.1, h.2.1, fun p hp hpd => h.2.2.1 p hp (hcd p hp hpd), h.2.2.2⟩

/-- One pass through the body of the innermost loop keeps the invariant and
advances the cursor by one grid point. -/
theorem visit_inv {field : Nat → Nat → Nat → ℚ} {minimum : Bool}
    {nx ny nz ix iy iz : Nat} {s : Extreme} (hx : ix < nx) (hy : iy < ny) (hz : iz < nz)
    (h : SearchInv field minimum nx ny nz (ix, iy, iz) s) :
    SearchInv field minimum nx ny nz (ix, iy, iz + 1) (visit field minimum ix iy s iz) := by
  obtain ⟨hv, hg, hall, hfirst⟩ := h
  have hsplit : ∀ p : Nat × Nat × Nat, scanBefore p (ix, iy, iz + 1) →
      scanBefore p (ix, iy, iz) ∨ p = (ix, iy, iz) := by
    rintro ⟨px, py, pz⟩ hp
    simp only [scanBefore, Prod.mk.injEq] at hp ⊢
    omega
  unfold visit
  simp only []
  cases minimum with
  | false =>
    simp only [notWorse, Bool.false_eq_true, if_false] at hall hfirst ⊢
    split_ifs with hgt
    · refine ⟨rfl, ⟨hx, hy, hz⟩, ?_, ?_⟩
      · intro p hp hb
        rcases hsplit p hb with h1 | h1
        · have := hall p hp h1
          show fieldAt field p ≤ field ix iy iz
          linarith
        · subst h1; exact le_rfl
      · intro p hp hb
        have := hall p hp hb
        constructor
        · show fieldAt field p ≤ field ix iy iz
          linarith
        · show field ix iy iz ≠ fieldAt field p
          intro he; linarith
    · refine ⟨hv, hg, ?_, hfirst⟩
      intro p hp hb
      rcases hsplit p hb with h1 | h1
      · exact hall p hp h1
      · subst h1; exact not_lt.mp hgt
  | true =>
    simp only [notWorse, if_true] at hall hfirst ⊢
    split_ifs with hgt
    · refine ⟨rfl, ⟨hx, hy, hz⟩, ?_, ?_⟩
      · intro p hp hb
        rcases hsplit p hb with h1 | h1
        · have := hall p hp h1
          show field ix iy iz ≤ fieldAt field p
          linarith
        · subst h1; exact le_rfl
      · intro p hp hb
        have := hall p hp hb
        constructor
        · show field ix iy iz ≤ fieldAt field p
          linarith
        · show field ix iy iz ≠ fieldAt field p
          intro he; linarith
    · refine ⟨hv, hg, ?_, hfirst⟩
      intro p hp hb
      rcases hsplit p hb with h1 | h1
      · exact hall p hp h1
      · subst h1; exact not_lt.mp hgt

/-- The z loop takes the invariant from the start of row `(ix, iy)` to the
start of the next row. -/
theorem searchZ_inv {field : Nat → Nat → Nat → ℚ} {minimum : Bool}
    {nx ny nz ix iy : Nat} {s : Extreme} (hx : ix < nx) (hy : iy < ny)
    (h : SearchInv field minimum nx ny nz (ix, iy, 0) s) :
    SearchInv field minimum nx ny nz (ix, iy + 1, 0) (searchZ field minimum nz ix iy s) := by
  have hloop := foldl_range_invariant (visit field minimum ix iy)
    (fun iz t => SearchInv field minimum nx ny nz (ix, iy, iz) t) nz s h
    (fun _ _ hz ht => visit_inv hx hy hz ht)
  refine SearchInv.cursor hloop ?_
  rintro ⟨px, py, pz⟩ hp hb
  simp only [scanBefore, inGrid] at hp hb ⊢
  omega

/-- The y loop takes the invariant from the start of plane `ix` to the start
of the next plane. -/
theorem searchY_inv {field : Nat → Nat → Nat → ℚ} {minimum : Bool}
    {nx ny nz ix : Nat} {s : Extreme} (hx : ix < nx)
    (h : SearchInv field minimum nx ny nz (ix, 0, 0) s) :
    SearchInv field minimum nx ny nz (ix + 1, 0, 0) (searchY field minimum ny nz ix s) := by
  have hloop := foldl_range_invariant (fun t iy => searchZ field minimum nz ix iy t)
    (fun iy t => SearchInv field minimum nx ny nz (ix, iy, 0) t) ny s h
    (fun _ _ hy ht => searchZ_inv hx hy ht)
  refine SearchInv.cursor hloop ?_
  rintro ⟨px, py, pz⟩ hp hb
  simp only [scanBefore, inGrid] at hp hb ⊢
  omega

/-- The x loop takes the invariant from the first grid point past the last
plane. -/
theorem searchX_inv {field : Nat → Nat → Nat → ℚ} {minimum : Bool} {nx ny nz : Nat}
    {s : Extreme} (h : SearchInv field minimum nx ny nz (0, 0, 0) s) :
    SearchInv field minimum nx ny nz (nx, 0, 0) (searchX field minimum nx ny nz s) :=
  foldl_range_invariant (fun t ix => searchY field minimum ny nz ix t)
    (fun ix t => SearchInv field minimum nx ny nz (ix, 0, 0) t) nx s h
    (fun _ _ hx ht => searchY_inv hx ht)

/-- C5: when stacking is not fiducial, on a grid with `nx, ny, nz ≥ 1` the
search ends with `extremeIndex` on the grid, `extremeValue` equal to the field
there, the field at `extremeIndex` at least every field value (at most every
field value when `minimum` is set), and no tied grid point earlier in scan
order (x outermost, z innermost). -/
theorem findExtreme_global_first (field : Nat → Nat → Nat → ℚ) (minimum : Bool)
    (nx ny nz : Nat) (hx : 1 ≤ nx) (hy : 1 ≤ ny) (hz : 1 ≤ nz) :
    inGrid nx ny nz (findExtreme field false minimum nx ny nz).extremeIndex ∧
    (findExtreme field false minimum nx ny nz).extremeValue
      = fieldAt field (findExtreme field false minimum nx ny nz).extremeIndex ∧
    ∀ ix iy iz, ix < nx → iy < ny → iz < nz →
      (minimum = false → field ix iy iz
        ≤ fieldAt field (findExtreme field false minimum nx ny nz).extremeIndex) ∧
      (minimum = true → fieldAt field (findExtreme field false minimum nx ny nz).extremeIndex
        ≤ field ix iy iz) ∧
      (field ix iy iz = fieldAt field (findExtreme field false minimum nx ny nz).extremeIndex →
        ¬ scanBefore (ix, iy, iz) (findExtreme field false minimum nx ny nz).extremeIndex) := by
  have start : SearchInv field minimum nx ny nz (0, 0, 0)
      { extremeValue := field 0 0 0, extremeIndex := (0, 0, 0) } := by
    refine ⟨rfl, ⟨hx, hy, hz⟩, ?_, ?_⟩
    · rintro ⟨px, py, pz⟩ _ hb
      simp only [scanBefore] at hb; omega
    · rintro ⟨px, py, pz⟩ _ hb
      simp only [scanBefore] at hb; omega
  have hdef : findExtreme field false minimum nx ny nz
      = searchX field minimum nx ny nz
          { extremeValue := field 0 0 0, extremeIndex := (0, 0, 0) } := by
    simp [findExtreme]
  rw [hdef]
  obtain ⟨hv, hg, hall, hfirst⟩ := searchX_inv start
  refine ⟨hg, hv, ?_⟩
  intro ix iy iz hix hiy hiz
  have hp : inGrid nx ny nz (ix, iy, iz) := ⟨hix, hiy, hiz⟩
  have hb : scanBefore (ix, iy, iz) (nx, 0, 0) := Or.inl hix
  have h1 := hall (ix, iy, iz) hp hb
  rw [← hv]
  refine ⟨?_, ?_, ?_⟩
  · intro hm; subst hm; simpa [notWorse] using h1
  · intro hm; subst hm; simpa [notWorse] using h1
  · intro he hbefore
    exact (hfirst (ix, iy, iz) hp hbefore).2 he.symm

/-- Instance of C5 for the maximum of `sampleField` on the `2 * 2 * 2` grid. -/
theorem findExtreme_global_first_witness :
    (1 ≤ 2 ∧ 1 ≤ 2 ∧ 1 ≤ 2) ∧
    inGrid 2 2 2 (findExtreme sampleField false false 2 2 2).extremeIndex ∧
    (findExtreme sampleField false false 2 2 2).extremeValue
      = fieldAt sampleField (findExtreme sampleField false false 2 2 2).extremeIndex :=
  ⟨by decide,
   (findExtreme_global_first sampleField false 2 2 2 (by decide) (by decide) (by decide)).1,
   (findExtreme_global_first sampleField false 2 2 2 (by decide) (by decide) (by decide)).2.1⟩

/-- On the sample field the search returns the first of the two tied maxima. -/
theorem findExtreme_sampleField :
    (findExtreme sampleField false false 2 2 2).extremeIndex = (0, 1, 0) ∧
    (findExtreme sampleField false false 2 2 2).extremeValue = 1 := by
  norm_num [findExtreme, searchX, searchY, searchZ, visit, sampleField, List.range_succ]

/-! ### One-dimensional histogram -/

set_option maxRecDepth 100000

/-- The bit length brackets a positive number between two powers of two. -/
theorem Dbl.bitLengthAux_spec (fuel n : Nat) (hf : n ≤ fuel) (hn : 0 < n) :
    2 ^ (Dbl.bitLengthAux fuel n - 1) ≤ n ∧ n < 2 ^ Dbl.bitLengthAux fuel n := by
  induction fuel generalizing n with
  | zero => omega
  | succ f ih =>
    rw [Dbl.bitLengthAux, if_neg (by omega)]
    by_cases h1 : n / 2 = 0
    · have hn1 : n = 1 := by omega
      subst hn1
      cases f <;> simp [Dbl.bitLengthAux]
    · obtain ⟨hlo, hhi⟩ := ih (n / 2) (by omega) (by omega)
      have hpos : 0 < Dbl.bitLengthAux f (n / 2) := by
        by_contra h0
        have hz : Dbl.bitLengthAux f (n / 2) = 0 := by omega
        rw [hz] at hhi
        simp at hhi
        exact h1 hhi
      have e1 : Dbl.bitLengthAux f (n / 2) + 1 - 1
          = (Dbl.bitLengthAux f (n / 2) - 1) + 1 := by omega
      rw [e1, pow_succ, pow_succ]
      constructor <;> omega

/-- The literal constants are the correctly rounded quotients `1/10` and
`17/10`, and `0.1 + 0.2` differs from `0.3` as it does in binary64. -/
theorem Dbl.decimal_constants :
    (Dbl.div (Dbl.ofInt 1) (Dbl.ofInt 10)).toRat = dblTenth.toRat ∧
    (Dbl.div (Dbl.ofInt 17) (Dbl.ofInt 10)).m = dblSeventeenTenths.m ∧
    (Dbl.div (Dbl.ofInt 17) (Dbl.ofInt 10)).e = dblSeventeenTenths.e ∧
    Dbl.lt (Dbl.div (Dbl.ofInt 3) (Dbl.ofInt 10))
      (Dbl.add (Dbl.div (Dbl.ofInt 1) (Dbl.ofInt 10))
        (Dbl.div (Dbl.ofInt 2) (Dbl.ofInt 10))) = true := by
  have h1 : (Dbl.div (Dbl.ofInt 1) (Dbl.ofInt 10)).m = 7205759403792794 := by decide
  have h2 : (Dbl.div (Dbl.ofInt 1) (Dbl.ofInt 10)).e = -56 := by decide
  refine ⟨?_, by decide, by decide, by decide⟩
  simp only [Dbl.toRat, h1, h2, dblTenth]
  norm_num

/-- C6, evaluated for `rmin = 0`, `binsize = 0.1`, `nbins = 17` at `r = 1.7`:
`r` lies inside the histogram, `rmin ≤ r < rmin + nbins*binsize`, and
`floor((r - rmin)/binsize)` is 16, but the upper edge rounds to
`1.7000000000000002` and the quotient rounds to `17.0`, so the value is
accumulated into index 17, which is not below `nbins`. -/
theorem accumulateBin_index_out_of_range :
    (dblZero.toRat ≤ dblSeventeenTenths.toRat ∧
      dblSeventeenTenths.toRat < dblZero.toRat + 17 * dblTenth.toRat) ∧
    ⌊(dblSeventeenTenths.toRat - dblZero.toRat) / dblTenth.toRat⌋ = 16 ∧
    (rmax dblZero dblTenth 17).m = 7656119366529844 ∧
    (rmax dblZero dblTenth 17).e = -52 ∧
    accumulateBin dblZero dblTenth 17 dblSeventeenTenths = some 17 ∧
    ¬ ∃ i : Int, accumulateBin dblZero dblTenth 17 dblSeventeenTenths = some i ∧
      0 ≤ i ∧ i < 17 := by
  have hacc : accumulateBin dblZero dblTenth 17 dblSeventeenTenths = some 17 := by
    decide
  refine ⟨?_, ?_, by decide, by decide, hacc, ?_⟩
  · simp only [Dbl.toRat, dblZero, dblTenth, dblSeventeenTenths]
    norm_num
  · rw [Int.floor_eq_iff]
    simp only [Dbl.toRat, dblZero, dblTenth, dblSeventeenTenths]
    norm_num
  · rintro ⟨i, hi, _, hlt⟩
    rw [hacc] at hi
    have h17 : i = 17 := (Option.some.inj hi).symm
    omega

/-- With the same histogram, `r = 0.5` is accumulated into bin 5 although
`floor((r - rmin)/binsize)` is 4 for the values stored in the `double`s. -/
theorem accumulateBin_half :
    accumulateBin dblZero dblTenth 17 (Dbl.div (Dbl.ofInt 1) (Dbl.ofInt 2)) = some 5 ∧
    ⌊((1 : ℚ) / 2 - dblZero.toRat) / dblTenth.toRat⌋ = 4 := by
  refine ⟨by decide, ?_⟩
  rw [Int.floor_eq_iff]
  simp only [Dbl.toRat, dblZero, dblTenth]
  norm_num

/-- With integer-valued edges, as in the default histogram (`rmin = 2`,
`binsize = 4`, `nbins = 37`), the last value below the upper edge goes to the
last bin and the upper edge itself is not accumulated. -/
theorem accumulateBin_default_edges :
    accumulateBin (Dbl.ofInt 2) (Dbl.ofInt 4) 37 (Dbl.ofInt 149) = some 36 ∧
    accumulateBin (Dbl.ofInt 2) (Dbl.ofInt 4) 37 (Dbl.ofInt 150) = none ∧
    accumulateBin (Dbl.ofInt 2) (Dbl.ofInt 4) 37 (Dbl.ofInt 2) = some 0 := by
  refine ⟨by decide, by decide, by decide⟩

/-! ### Input of the multipole transform -/

/-- The filling loop leaves in `funcData` the power evaluated at each point of
the u-grid, in order. -/
theorem fillFuncData_eq_map (Pk : ℚ → ℚ) (ugrid : List ℚ) :
    fillFuncData Pk ugrid = ugrid.map Pk := by
  unfold fillFuncData
  simp only [List.length_replicate]
  have inv := foldl_range_invariant
    (fun (fd : List ℚ) i => fd.set i (Pk (ugrid.getD i 0)))
    (fun k fd => fd.length = ugrid.length ∧
      ∀ i, i < k → fd[i]? = some (Pk (ugrid.getD i 0)))
    ugrid.length (List.replicate ugrid.length 0)
    ⟨by simp, by intro i hi; omega⟩
    (by
      intro k fd hk ⟨hlen, hval⟩
      refine ⟨by simp [hlen], ?_⟩
      intro i hi
      rw [List.getElem?_set]
      by_cases hik : k = i
      · subst hik; simp [hlen, hk]
      · simp only [hik, if_false]; exact hval i (by omega))
  obtain ⟨hlen, hval⟩ := inv
  apply List.ext_getElem?
  intro i
  by_cases hi : i < ugrid.length
  · rw [hval i hi]
    simp [List.getD_eq_getElem?_getD, List.getElem?_eq_getElem hi]
  · rw [List.getElem?_eq_none (by omega), List.getElem?_eq_none (by simp; omega)]

/-- C7: the vector handed to the transform as input has the length of the
u-grid and its `i`-th entry is `P(ugrid[i])` for every index `i`; the output
vector has the length of the v-grid. -/
theorem transformArgs_sampled_on_ugrid (Pk : ℚ → ℚ) (ugrid vgrid : List ℚ) :
    (transformArgs Pk ugrid vgrid).funcData.length = ugrid.length ∧
    (∀ i : Nat, (transformArgs Pk ugrid vgrid).funcData[i]? = (ugrid[i]?).map Pk) ∧
    (transformArgs Pk ugrid vgrid).funcData = ugrid.map Pk ∧
    (transformArgs Pk ugrid vgrid).results.length = vgrid.length := by
  simp [transformArgs, fillFuncData_eq_map]

/-! ### Termination message of the correlation driver -/

/-- After at least one pass the loop variable `ok` holds the result of the
last transform call. -/
theorem repeatTransform_succ (transform : Nat → Bool) (n : Nat) (ok : Bool) :
    repeatTransform transform ((n : Int) + 1) ok = transform n := by
  unfold repeatTransform
  have hn : ((n : Int) + 1).toNat = n + 1 := by omega
  rw [hn, List.range_succ, List.foldl_append]
  rfl

/-- For every repeat count `≥ 1` the message is printed if and only if the
last of the transform calls returned false. -/
theorem termination_message_iff_last_call (transform : Nat → Bool) (nrepeat : Int)
    (ok : Bool) (h : 1 ≤ nrepeat) :
    printsTerminationFailure transform nrepeat ok = true ↔
      transform (nrepeat.toNat - 1) = false := by
  obtain ⟨n, rfl⟩ : ∃ n : Nat, nrepeat = (n : Int) + 1 := ⟨(nrepeat - 1).toNat, by omega⟩
  unfold printsTerminationFailure
  rw [repeatTransform_succ]
  have hn : ((n : Int) + 1).toNat - 1 = n := by omega
  rw [hn]
  simp

/-- When the repeated calls are identical (all return the same value) and the
repeat count is `≥ 1`, the message is printed if and only if a transform call
returned false. -/
theorem termination_message_identical_calls (transform : Nat → Bool) (t : Bool)
    (nrepeat : Int) (ok : Bool) (hsame : ∀ i, transform i = t) (h : 1 ≤ nrepeat) :
    printsTerminationFailure transform nrepeat ok = true ↔
      ∃ i : Nat, (i : Int) < nrepeat ∧ transform i = false := by
  rw [termination_message_iff_last_call transform nrepeat ok h, hsame]
  constructor
  · intro ht
    exact ⟨0, by omega, by rw [hsame]; exact ht⟩
  · rintro ⟨i, _, hi⟩
    rw [hsame] at hi
    exact hi

/-- C8, evaluated at a repeat count of zero: no transform is called, the
variable `ok` is read as it was before the loop (it has no initialiser), and
when it holds false the message is printed although no transform call
returned false; when it holds true nothing is printed. -/
theorem termination_message_without_call (transform : Nat → Bool) :
    printsTerminationFailure transform 0 false = true ∧
    printsTerminationFailure transform 0 true = false ∧
    ¬ ∃ i : Nat, (i : Int) < 0 ∧ transform i = false := by
  refine ⟨rfl, rfl, ?_⟩
  rintro ⟨i, hi, _⟩
  omega

/-- The same holds for a negative repeat count. -/
theorem termination_message_negative_repeat (transform : Nat → Bool) (ok : Bool) :
    printsTerminationFailure transform (-1) ok = !ok := rfl

/-! ### Status messages and snapshots -/

/-- In exact arithmetic the snapshot number is the integer quotient
`(ifield+1)*10 / nfields`. -/
theorem snapshotNumber_eq (nfields ifield : Int) (hn : 0 < nfields) (hi : 0 ≤ ifield) :
    snapshotNumber nfields ifield = (ifield + 1) * 10 / nfields := by
  unfold snapshotNumber truncToInt
  have hpos : (0 : ℚ) ≤ ((ifield : ℚ) + 1) / (nfields : ℚ) * 10 := by
    have h1 : (0 : ℚ) ≤ (ifield : ℚ) := by exact_mod_cast hi
    have h2 : (0 : ℚ) < (nfields : ℚ) := by exact_mod_cast hn
    positivity
  rw [if_pos hpos]
  obtain ⟨d, rfl⟩ : ∃ d : Nat, nfields = (d : Int) := ⟨nfields.toNat, by omega⟩
  have hq : ((ifield : ℚ) + 1) / (((d : Int)) : ℚ) * 10
      = (((ifield + 1) * 10 : Int) : ℚ) / (d : ℚ) := by
    push_cast; ring
  rw [hq, Rat.floor_intCast_div_natCast]

/-- C10, evaluated at `nfields = 15`: the status / snapshot branch is taken at
every one of the 15 fields (not ten times), and the snapshot numbers written
are `0,1,2,2,3,4,4,5,6,6,7,8,8,9,10`: the value 0 occurs and 2, 4, 6 and 8
occur twice. -/
theorem status_branch_fifteen_fields :
    statusFields 15 = [0, 1, 2, 3, 4, 5, 6, 7, 8, 9, 10, 11, 12, 13, 14] ∧
    (statusFields 15).length = 15 ∧
    snapshotNumbers 15 = [0, 1, 2, 2, 3, 4, 4, 5, 6, 6, 7, 8, 8, 9, 10] := by
  have h : statusFields 15 = [0, 1, 2, 3, 4, 5, 6, 7, 8, 9, 10, 11, 12, 13, 14] := by
    decide
  refine ⟨h, by rw [h]; rfl, ?_⟩
  unfold snapshotNumbers
  rw [h]
  simp [snapshotNumber_eq]

/-- When `nfields = 10*m` with `m ≥ 2` the branch is taken exactly at the
fields with `ifield + 1 = m*j`, `j = 1..10`, and the snapshot number written
there is `j`. -/
theorem statusBranch_tens (m i : Int) (hm : 2 ≤ m) (hi0 : 0 ≤ i) (_hi : i < 10 * m) :
    (statusBranch (10 * m) i = true ↔ ∃ j : Int, 1 ≤ j ∧ j ≤ 10 ∧ i + 1 = m * j) ∧
    (statusBranch (10 * m) i = true → (snapshotNumber (10 * m) i) * m = i + 1) := by
  have hdiv : Int.tdiv (10 * m) 10 = m := Int.mul_tdiv_cancel_left m (by decide)
  have hmod : Int.tmod (i + 1) m = (i + 1) % m :=
    Int.tmod_eq_emod (by omega) (by omega)
  have hb : statusBranch (10 * m) i = true ↔ (i + 1) % m = 0 := by
    unfold statusBranch
    rw [hdiv, hmod]
    simp; omega
  have hchar : (i + 1) % m = 0 ↔ ∃ j : Int, 1 ≤ j ∧ j ≤ 10 ∧ i + 1 = m * j := by
    constructor
    · intro h
      obtain ⟨j, hj⟩ := Int.dvd_of_emod_eq_zero h
      refine ⟨j, ?_, ?_, hj⟩
      · by_contra hlt
        have : m * j ≤ 0 := Int.mul_nonpos_of_nonneg_of_nonpos (by omega) (by omega)
        omega
      · by_contra hgt
        have : m * 11 ≤ m * j := Int.mul_le_mul_of_nonneg_left (by omega) (by omega)
        omega
    · rintro ⟨j, _, _, hj⟩
      rw [hj]; exact Int.mul_emod_right m j
  refine ⟨hb.trans hchar, ?_⟩
  intro h
  obtain ⟨j, hj1, hj10, hj⟩ := hchar.mp (hb.mp h)
  rw [snapshotNumber_eq _ _ (by omega) hi0, hj]
  have hquot : m * j * 10 / (10 * m) = j := by
    have e : m * j * 10 = (10 * m) * j := by ring
    rw [e, Int.mul_ediv_cancel_left _ (by omega)]
  rw [hquot]; ring

end Cosmo
